import Mathlib

/-!
Verification development for the compvec / FiloDB rust codec boundary
(src/rust/src/lib.rs) and the NibblePacking block codec it drives.

The boundary layer (lib.rs) is embedded directly from the source.  The codec
modules (nibblepacking, byteutils, histogram) are referenced by lib.rs but
their sources are not part of this tree, so their definitions below are
modelled from the written specification (marked `Modelled from the spec:`).

Conventions of the embedding: bytes and u64 values are `Nat` with explicit
`% 2^64` where wrap-around matters; i32 arithmetic is `Int` with an explicit
two's-complement wrap; raw pointers are `Option` addresses into an explicit
byte-list memory, with `none` standing for the null pointer and an assertion
failure modelled as the `none` result; fallible operations return `Except`
or `Option`.  All definitions are structurally recursive so that concrete
instances evaluate by kernel reduction.
-/

namespace Filo

/-- Modelled from the spec: the codec error taxonomy (spec section 7) as far as
the decode path needs it.  `TruncatedInput` for a buffer shorter than its
declared groups require, `InconsistentLength` for a declared count of zero
with bytes remaining. -/
inductive Err where
  | TruncatedInput
  | InconsistentLength
deriving DecidableEq

/-- Number of distinct u64 values, i.e. 2 to the 64.  Written as a literal so
that `omega` can work with it after unfolding. -/
def U64LIMIT : Nat := 18446744073709551616

/-- Modelled from the spec: byteutils bit_width measured in nibbles (bit_width
divided by 4), computed as the number of base-16 digits: 0 for the value 0,
otherwise one more than the width of `v / 16`.  The first argument is fuel, a
structural-recursion device only — one unit per digit, so any fuel at least
`v` is enough and the wrapper fixes it. -/
def nibbleWidthAux : Nat → Nat → Nat
  | _, 0 => 0
  | 0, _ + 1 => 1
  | fuel + 1, v + 1 => nibbleWidthAux fuel ((v + 1) / 16) + 1

/-- Modelled from the spec: the smallest number of 4-bit nibbles such that the
value fits, 0 exactly for the value 0. -/
def nibbleWidth (v : Nat) : Nat := nibbleWidthAux v v

/-- Modelled from the spec: the shared nibble width of one 8-slot group, the
maximum `nibbleWidth` over the slots (zero slots contribute width 0, so this
is the maximum over the nonzero slots). -/
def groupWidth (g : List Nat) : Nat :=
  g.foldr (fun v acc => max (nibbleWidth v) acc) 0

/-- Low-order-first base-16 digits of a value, exactly `k` of them. -/
def toNibbles : Nat → Nat → List Nat
  | 0, _ => []
  | k + 1, v => v % 16 :: toNibbles k (v / 16)

/-- Value of a low-order-first list of base-16 digits. -/
def fromNibbles : List Nat → Nat
  | [] => 0
  | n :: rest => n + 16 * fromNibbles rest

/-- Byte with the listed bits, lowest bit first. -/
def bitsToByte : List Bool → Nat
  | [] => 0
  | b :: rest => (if b then 1 else 0) + 2 * bitsToByte rest

/-- Lowest `k` bits of a byte, lowest bit first. -/
def byteToBits : Nat → Nat → List Bool
  | 0, _ => []
  | k + 1, m => (m % 2 == 1) :: byteToBits k (m / 2)

/-- Pack a nibble list into bytes, low nibble of each byte first; an odd
trailing nibble is padded with a zero high nibble. -/
def nibblesToBytes : List Nat → List Nat
  | [] => []
  | [n] => [n]
  | n1 :: n2 :: rest => (n1 + 16 * n2) :: nibblesToBytes rest

/-- Unpack bytes into their nibbles, low nibble of each byte first. -/
def bytesToNibbles : List Nat → List Nat
  | [] => []
  | b :: rest => b % 16 :: b / 16 :: bytesToNibbles rest

/-- Modelled from the spec: the payload nibbles of one group — the nonzero
slot values packed back to back, `w` nibbles each, in slot order. -/
def payloadNibbles (w : Nat) : List Nat → List Nat
  | [] => []
  | v :: rest => (if v != 0 then toNibbles w v else []) ++ payloadNibbles w rest

/-- Modelled from the spec: rebuild the slot values of one group from its
bit mask and payload nibbles; a set bit consumes `w` payload nibbles, a clear
bit contributes the value 0 without consuming payload. -/
def readSlots : List Bool → Nat → List Nat → List Nat
  | [], _, _ => []
  | true :: bs, w, nibs => fromNibbles (nibs.take w) :: readSlots bs w (nibs.drop w)
  | false :: bs, w, nibs => 0 :: readSlots bs w nibs

/-- Modelled from the spec: encode one group of 8 slots — one control byte
holding the shared nibble width, one mask byte (bit set iff the slot is
nonzero, the convention of the worked example in spec section 8), then the
payload nibbles packed into bytes. -/
def packGroup (g : List Nat) : List Nat :=
  groupWidth g :: bitsToByte (g.map (fun v => v != 0)) ::
    nibblesToBytes (payloadNibbles (groupWidth g) g)

/-- Modelled from the spec: decode one group — read the control byte and mask
byte, check that the payload bytes the mask and width declare are present
(else `TruncatedInput`, never reading past the buffer), rebuild the 8 slot
values and return them with the unconsumed rest of the buffer. -/
def unpackGroup (buf : List Nat) : Except Err (List Nat × List Nat) :=
  match buf with
  | w :: m :: rest =>
    let bits := byteToBits 8 m
    let byteCount := (w * bits.countP (fun b => b) + 1) / 2
    if byteCount ≤ rest.length then
      Except.ok (readSlots bits w (bytesToNibbles (rest.take byteCount)), rest.drop byteCount)
    else Except.error Err.TruncatedInput
  | _ => Except.error Err.TruncatedInput

/-- Modelled from the spec: the delta-reconstructing Sink — a running absolute
accumulator and an append-only output buffer of reconstructed values. -/
structure DeltaSink where
  acc : Nat
  out : List Nat
deriving DecidableEq

/-- Modelled from the spec: push one decoded delta — accumulate (u64
wrap-around) and append the new absolute value to the output buffer. -/
def DeltaSink.push (s : DeltaSink) (v : Nat) : DeltaSink :=
  { acc := (s.acc + v) % U64LIMIT, out := s.out ++ [(s.acc + v) % U64LIMIT] }

/-- Modelled from the spec: explicit reset of a sink — output length back to 0
and accumulator back to the zero base.  `nibblepack_unpack_delta_u64` is
supposed to invoke this before each decode. -/
def DeltaSink.reset (_ : DeltaSink) : DeltaSink :=
  { acc := 0, out := [] }

/-- Push a list of deltas in order. -/
def pushAll (s : DeltaSink) (vs : List Nat) : DeltaSink :=
  vs.foldl DeltaSink.push s

/-- Modelled from the spec: encode a value sequence in groups of 8, the last
group zero padded to 8 slots.  The `fuel` argument is a structural-recursion
device only: one unit per group, so any `fuel` at least the list length is
enough and the result is independent of it (the wrapper fixes it). -/
def packStreamAux : Nat → List Nat → List Nat
  | _, [] => []
  | 0, _ :: _ => []
  | fuel + 1, v :: rest =>
    packGroup ((v :: rest).take 8 ++ List.replicate (8 - (v :: rest).length) 0) ++
      packStreamAux fuel ((v :: rest).drop 8)

/-- Modelled from the spec: the NibblePacking stream encoder over full groups
of 8 with a zero-padded final group. -/
def packStream (vs : List Nat) : List Nat :=
  packStreamAux vs.length vs

/-- Modelled from the spec: the decode loop — while values remain to deliver,
decode one group and push its meaningful slots (all 8, or fewer for a partial
final group) to the sink; a declared count of zero with bytes remaining is
`InconsistentLength`; running out of bytes is `TruncatedInput`.  The `fuel`
argument is a structural-recursion device: one unit per group, so any `fuel`
at least the declared count is enough (the wrapper fixes it). -/
def unpackAux : Nat → List Nat → DeltaSink → Nat → Except Err DeltaSink
  | _, buf, sink, 0 =>
    if buf.isEmpty then Except.ok sink else Except.error Err.InconsistentLength
  | 0, _, _, _ + 1 => Except.error Err.TruncatedInput
  | fuel + 1, buf, sink, n + 1 =>
    match unpackGroup buf with
    | Except.error e => Except.error e
    | Except.ok (g, rest) =>
      unpackAux fuel rest (pushAll sink (g.take (n + 1))) (n + 1 - 8)

/-- Modelled from the spec: nibblepacking unpack as called from lib.rs —
decode `numValues` values from the buffer into the supplied sink. -/
def unpack (buf : List Nat) (sink : DeltaSink) (numValues : Nat) : Except Err DeltaSink :=
  unpackAux numValues buf sink numValues

/-- Wrapped u64 deltas of a sequence against a running base: element i is
`seq[i] - seq[i-1]` modulo 2^64 (the first against `base`). -/
def deltasFrom (base : Nat) : List Nat → List Nat
  | [] => []
  | v :: rest => (U64LIMIT + v - base) % U64LIMIT :: deltasFrom v rest

/-- Embedding of lib.rs `nibblepack_unpack_delta_u64`: null (modelled `none`)
when `num_bytes <= 0` or `num_values <= 0`, otherwise decode the first
`num_bytes` bytes into the thread-local delta sink, returning the pointer to
its output buffer (modelled as the buffer contents) on success and null on
any decode error.  The sink is threaded explicitly as the thread-local state;
exactly as in the source, it is NOT reset before use. -/
def nibblepack_unpack_delta_u64 (encoded_buf : List Nat) (num_bytes num_values : Int)
    (sink : DeltaSink) : Option (List Nat) :=
  if num_bytes ≤ 0 ∨ num_values ≤ 0 then none
  else
    match unpack (encoded_buf.take num_bytes.toNat) sink num_values.toNat with
    | Except.ok s => some s.out
    | Except.error _ => none

/-- Modelled from the spec: the histogram encoder error for bad construction
parameters. -/
inductive HistError where
  | ValidationError
deriving DecidableEq

/-- Modelled from the spec: the assembled histogram frame, field for field in
layout order.  Floating point bucket parameters are modelled as rationals and
their 8-byte serialization is left abstract. -/
structure HistFrame where
  formatCode : Nat
  bucketCount : Nat
  initialBucket : Rat
  multiplier : Rat
  stream : List Nat
deriving DecidableEq

/-- Modelled from the spec: histogram compress_geom_nonincreasing (spec
section 4.4) — validate `num_buckets ≤ 65535`, `multiplier > 1`,
`initial_bucket > 0` (violations yield `ValidationError`), logically reverse
the non-increasing bucket counts, delta-encode them with NibblePacking, and
assemble the frame. -/
def compress_geom_nonincreasing (num_buckets : Nat) (initial_bucket multiplier : Rat)
    (format_code : Nat) (values : List Nat) : Except HistError HistFrame :=
  if 65535 < num_buckets then Except.error HistError.ValidationError
  else if multiplier ≤ 1 then Except.error HistError.ValidationError
  else if initial_bucket ≤ 0 then Except.error HistError.ValidationError
  else Except.ok
    { formatCode := format_code
      bucketCount := num_buckets
      initialBucket := initial_bucket
      multiplier := multiplier
      stream := packStream (deltasFrom 0 values.reverse) }

/-- Embedding of lib.rs `compress_hist_geom_nonincreasing`: the cleared
thread-local buffer is abstracted away (the frame is returned structurally);
the entry point performs no parameter checks of its own, reads `num_buckets`
values from the input pointer, and calls the histogram encoder with
`num_buckets as u16`, i.e. `num_buckets` modulo 2^16. -/
def compress_hist_geom_nonincreasing (num_buckets : Nat)
    (initial_bucket multiplier : Rat) (format_code : Nat)
    (bucket_values : List Nat) : Except HistError HistFrame :=
  compress_geom_nonincreasing (num_buckets % 65536) initial_bucket multiplier
    format_code (bucket_values.take num_buckets)

/-- Two's-complement wrap of an integer into the i32 range, as Rust
release-mode arithmetic does. -/
def wrap32 (x : Int) : Int :=
  (x + 2147483648) % 4294967296 - 2147483648

/-- Embedding of lib.rs `double_input`: `input * 2` in i32 arithmetic. -/
def double_input (input : Int) : Int :=
  wrap32 (input * 2)

/-- Little-endian u16 read at an address of a byte-list memory. -/
def readU16LE (mem : List Nat) (a : Nat) : Nat :=
  mem.getD a 0 + 256 * mem.getD (a + 1) 0

/-- Little-endian u32 read at an address of a byte-list memory. -/
def readU32LE (mem : List Nat) (a : Nat) : Nat :=
  mem.getD a 0 + 256 * mem.getD (a + 1) 0 + 65536 * mem.getD (a + 2) 0 +
    16777216 * mem.getD (a + 3) 0

/-- Embedding of lib.rs `medium_slice_from_ptr`: the non-null assertion is
checked first — a null pointer (modelled `none`) fails it before any memory
access, so the result for `none` is `none` whatever the memory holds.  For a
non-null pointer the 2-byte little-endian length is read and the slice of
that many following bytes is returned. -/
def medium_slice_from_ptr (mem : List Nat) (buf_len_ptr : Option Nat) : Option (List Nat) :=
  match buf_len_ptr with
  | none => none
  | some a => some ((mem.drop (a + 2)).take (readU16LE mem a))

/-- Embedding of lib.rs `large_slice_from_ptr`: same as the medium variant
with a 4-byte little-endian length field. -/
def large_slice_from_ptr (mem : List Nat) (buf_len_ptr : Option Nat) : Option (List Nat) :=
  match buf_len_ptr with
  | none => none
  | some a => some ((mem.drop (a + 4)).take (readU32LE mem a))

theorem U64LIMIT_pos : 0 < U64LIMIT := by norm_num [U64LIMIT]

theorem lt_pow_nibbleWidthAux : ∀ (fuel v : Nat), v ≤ fuel → v < 16 ^ nibbleWidthAux fuel v
  | _, 0, _ => by simp [nibbleWidthAux]
  | 0, v + 1, h => by omega
  | fuel + 1, v + 1, h => by
    have hdiv : (v + 1) / 16 ≤ fuel := by omega
    have ih := lt_pow_nibbleWidthAux fuel ((v + 1) / 16) hdiv
    simp only [nibbleWidthAux, pow_succ]
    exact (Nat.div_lt_iff_lt_mul (by norm_num)).mp ih

theorem lt_pow_nibbleWidth (v : Nat) : v < 16 ^ nibbleWidth v :=
  lt_pow_nibbleWidthAux v v le_rfl

theorem nibbleWidth_le_groupWidth {v : Nat} : ∀ {g : List Nat}, v ∈ g →
    nibbleWidth v ≤ groupWidth g
  | a :: t, h => by
    rcases List.mem_cons.mp h with h | h
    · subst h; simp [groupWidth]
    · have := nibbleWidth_le_groupWidth h
      simp only [groupWidth, List.foldr_cons] at *
      omega

theorem length_toNibbles : ∀ (k v : Nat), (toNibbles k v).length = k
  | 0, _ => rfl
  | k + 1, v => by simp [toNibbles, length_toNibbles k]

theorem mem_toNibbles_lt : ∀ (k v n : Nat), n ∈ toNibbles k v → n < 16
  | k + 1, v, n, h => by
    rcases List.mem_cons.mp h with h | h
    · subst h; omega
    · exact mem_toNibbles_lt k (v / 16) n h

theorem fromNibbles_toNibbles : ∀ (k v : Nat), v < 16 ^ k →
    fromNibbles (toNibbles k v) = v
  | 0, v, h => by
    simp only [pow_zero] at h
    simp [toNibbles, fromNibbles]
    omega
  | k + 1, v, h => by
    have hdiv : v / 16 < 16 ^ k := by
      rw [pow_succ] at h
      exact (Nat.div_lt_iff_lt_mul (by norm_num)).mpr h
    have ih := fromNibbles_toNibbles k (v / 16) hdiv
    simp only [toNibbles, fromNibbles, ih]
    omega

theorem byteToBits_bitsToByte : ∀ bs : List Bool,
    byteToBits bs.length (bitsToByte bs) = bs
  | [] => rfl
  | b :: rest => by
    have ih := byteToBits_bitsToByte rest
    cases b
    · show ((0 + 2 * bitsToByte rest) % 2 == 1) ::
          byteToBits rest.length ((0 + 2 * bitsToByte rest) / 2) = false :: rest
      have e1 : (0 + 2 * bitsToByte rest) % 2 = 0 := by omega
      have e2 : (0 + 2 * bitsToByte rest) / 2 = bitsToByte rest := by omega
      rw [e1, e2, ih]
      rfl
    · show ((1 + 2 * bitsToByte rest) % 2 == 1) ::
          byteToBits rest.length ((1 + 2 * bitsToByte rest) / 2) = true :: rest
      have e1 : (1 + 2 * bitsToByte rest) % 2 = 1 := by omega
      have e2 : (1 + 2 * bitsToByte rest) / 2 = bitsToByte rest := by omega
      rw [e1, e2, ih]
      rfl

theorem length_nibblesToBytes : ∀ ns : List Nat,
    (nibblesToBytes ns).length = (ns.length + 1) / 2
  | [] => rfl
  | [_] => by simp [nibblesToBytes]
  | _ :: _ :: rest => by
    simp only [nibblesToBytes, List.length_cons, length_nibblesToBytes rest]
    omega

theorem bytesToNibbles_nibblesToBytes : ∀ ns : List Nat, (∀ n ∈ ns, n < 16) →
    bytesToNibbles (nibblesToBytes ns) =
      ns ++ (if ns.length % 2 = 0 then [] else [0])
  | [], _ => rfl
  | [n], h => by
    have hn : n < 16 := h n (by simp)
    simp only [nibblesToBytes, bytesToNibbles, List.length_cons]
    rw [Nat.mod_eq_of_lt hn, Nat.div_eq_of_lt hn]
    rfl
  | n1 :: n2 :: rest, h => by
    have h1 : n1 < 16 := h n1 (by simp)
    have ih := bytesToNibbles_nibblesToBytes rest (fun n hn => h n (by simp [hn]))
    simp only [nibblesToBytes, bytesToNibbles, List.length_cons]
    have e1 : (n1 + 16 * n2) % 16 = n1 := by omega
    have e2 : (n1 + 16 * n2) / 16 = n2 := by omega
    rw [e1, e2, ih]
    have e3 : (rest.length + 1 + 1) % 2 = rest.length % 2 := by omega
    simp [e3]

theorem length_payloadNibbles (w : Nat) : ∀ g : List Nat,
    (payloadNibbles w g).length = w * g.countP (fun v => v != 0)
  | [] => by simp [payloadNibbles]
  | v :: rest => by
    by_cases hv : v = 0 <;>
      simp [payloadNibbles, List.countP_cons, hv, length_toNibbles,
        length_payloadNibbles w rest] <;> ring

theorem mem_payloadNibbles_lt (w : Nat) : ∀ (g : List Nat) (n : Nat),
    n ∈ payloadNibbles w g → n < 16
  | v :: rest, n, h => by
    simp only [payloadNibbles, List.mem_append] at h
    rcases h with h | h
    · by_cases hv : v = 0
      · simp [hv] at h
      · simp only [if_pos (by simp [hv] : (v != 0) = true)] at h
        exact mem_toNibbles_lt w v n h
    · exact mem_payloadNibbles_lt w rest n h

theorem take_append_len {α : Type} : ∀ (l₁ l₂ : List α), (l₁ ++ l₂).take l₁.length = l₁
  | [], _ => rfl
  | a :: t, l₂ => by simp [take_append_len t l₂]

theorem drop_append_len {α : Type} : ∀ (l₁ l₂ : List α), (l₁ ++ l₂).drop l₁.length = l₂
  | [], _ => rfl
  | a :: t, l₂ => by simp [drop_append_len t l₂]

theorem readSlots_payloadNibbles (w : Nat) : ∀ (g extra : List Nat),
    (∀ v ∈ g, v < 16 ^ w) →
    readSlots (g.map (fun v => v != 0)) w (payloadNibbles w g ++ extra) = g
  | [], _, _ => rfl
  | v :: rest, extra, h => by
    have ih := readSlots_payloadNibbles w rest extra (fun x hx => h x (by simp [hx]))
    by_cases hv : v = 0
    · subst hv
      simpa [payloadNibbles, readSlots] using ih
    · have hb : (v != 0) = true := by simp [hv]
      have happ : payloadNibbles w (v :: rest) ++ extra =
          toNibbles w v ++ (payloadNibbles w rest ++ extra) := by
        simp [payloadNibbles, hb]
      have htake : (toNibbles w v ++ (payloadNibbles w rest ++ extra)).take w =
          toNibbles w v := by
        have := take_append_len (toNibbles w v) (payloadNibbles w rest ++ extra)
        rwa [length_toNibbles] at this
      have hdrop : (toNibbles w v ++ (payloadNibbles w rest ++ extra)).drop w =
          payloadNibbles w rest ++ extra := by
        have := drop_append_len (toNibbles w v) (payloadNibbles w rest ++ extra)
        rwa [length_toNibbles] at this
      simp only [List.map_cons, hb, happ, readSlots, htake, hdrop, ih]
      rw [fromNibbles_toNibbles w v (h v (by simp))]

theorem countP_bits (g : List Nat) :
    (g.map (fun v => v != 0)).countP (fun b => b) = g.countP (fun v => v != 0) := by
  rw [List.countP_map]
  rfl

theorem unpackGroup_packGroup_append (g : List Nat) (hg : g.length = 8) (rest : List Nat) :
    unpackGroup (packGroup g ++ rest) =
      Except.ok (readSlots (g.map (fun v => v != 0)) (groupWidth g)
        (bytesToNibbles (nibblesToBytes (payloadNibbles (groupWidth g) g))), rest) := by
  have hbits : byteToBits 8 (bitsToByte (g.map (fun v => v != 0))) =
      g.map (fun v => v != 0) := by
    have h8 : (g.map (fun v => v != 0)).length = 8 := by simp [hg]
    have := byteToBits_bitsToByte (g.map (fun v => v != 0))
    rwa [h8] at this
  have hlen : (nibblesToBytes (payloadNibbles (groupWidth g) g)).length =
      (groupWidth g * (g.map (fun v => v != 0)).countP (fun b => b) + 1) / 2 := by
    rw [length_nibblesToBytes, length_payloadNibbles, countP_bits]
  show unpackGroup (groupWidth g :: bitsToByte (g.map (fun v => v != 0)) ::
      (nibblesToBytes (payloadNibbles (groupWidth g) g) ++ rest)) = _
  simp only [unpackGroup]
  rw [hbits]
  rw [show (nibblesToBytes (payloadNibbles (groupWidth g) g) ++ rest).take
        ((groupWidth g * (g.map (fun v => v != 0)).countP (fun b => b) + 1) / 2) =
      nibblesToBytes (payloadNibbles (groupWidth g) g) by
    rw [← hlen]; exact take_append_len _ _]
  rw [show (nibblesToBytes (payloadNibbles (groupWidth g) g) ++ rest).drop
        ((groupWidth g * (g.map (fun v => v != 0)).countP (fun b => b) + 1) / 2) =
      rest by
    rw [← hlen]; exact drop_append_len _ _]
  rw [if_pos (by rw [← hlen]; simp)]

theorem unpackGroup_packGroup (g : List Nat) (hg : g.length = 8) (rest : List Nat) :
    unpackGroup (packGroup g ++ rest) = Except.ok (g, rest) := by
  rw [unpackGroup_packGroup_append g hg rest]
  have h16 : ∀ n ∈ payloadNibbles (groupWidth g) g, n < 16 :=
    fun n hn => mem_payloadNibbles_lt (groupWidth g) g n hn
  rw [bytesToNibbles_nibblesToBytes _ h16]
  have hv : ∀ v ∈ g, v < 16 ^ groupWidth g := fun v hv =>
    lt_of_lt_of_le (lt_pow_nibbleWidth v)
      (Nat.pow_le_pow_right (by norm_num) (nibbleWidth_le_groupWidth hv))
  rw [readSlots_payloadNibbles (groupWidth g) g _ hv]

theorem length_packGroup (g : List Nat) :
    (packGroup g).length = 2 + (nibblesToBytes (payloadNibbles (groupWidth g) g)).length := by
  simp [packGroup]
  omega

theorem unpackGroup_truncated (g : List Nat) (hg : g.length = 8) (k : Nat)
    (hk : k < (packGroup g).length) :
    unpackGroup ((packGroup g).take k) = Except.error Err.TruncatedInput := by
  match k with
  | 0 => rfl
  | 1 => rfl
  | k + 2 =>
    have hbits : byteToBits 8 (bitsToByte (g.map (fun v => v != 0))) =
        g.map (fun v => v != 0) := by
      have h8 : (g.map (fun v => v != 0)).length = 8 := by simp [hg]
      have := byteToBits_bitsToByte (g.map (fun v => v != 0))
      rwa [h8] at this
    have hlen : (nibblesToBytes (payloadNibbles (groupWidth g) g)).length =
        (groupWidth g * (g.map (fun v => v != 0)).countP (fun b => b) + 1) / 2 := by
      rw [length_nibblesToBytes, length_payloadNibbles, countP_bits]
    have hk2 : k < (nibblesToBytes (payloadNibbles (groupWidth g) g)).length := by
      rw [length_packGroup] at hk
      omega
    show unpackGroup (groupWidth g :: bitsToByte (g.map (fun v => v != 0)) ::
        (nibblesToBytes (payloadNibbles (groupWidth g) g)).take k) = _
    simp only [unpackGroup]
    rw [hbits]
    rw [if_neg]
    rw [← hlen]
    simp only [List.length_take]
    omega

theorem pushAll_append (s : DeltaSink) (l1 l2 : List Nat) :
    pushAll (pushAll s l1) l2 = pushAll s (l1 ++ l2) := by
  simp [pushAll, List.foldl_append]

theorem packStreamAux_cons (fuel : Nat) (v : Nat) (rest : List Nat) :
    packStreamAux (fuel + 1) (v :: rest) =
      packGroup ((v :: rest).take 8 ++ List.replicate (8 - (v :: rest).length) 0) ++
        packStreamAux fuel ((v :: rest).drop 8) := rfl

theorem unpackAux_step (fuel : Nat) (g buf2 : List Nat) (hg : g.length = 8)
    (s : DeltaSink) (n : Nat) :
    unpackAux (fuel + 1) (packGroup g ++ buf2) s (n + 1) =
      unpackAux fuel buf2 (pushAll s (g.take (n + 1))) (n + 1 - 8) := by
  simp only [unpackAux]
  rw [unpackGroup_packGroup g hg buf2]

theorem unpackAux_step_error (fuel : Nat) (buf : List Nat) (s : DeltaSink) (n : Nat)
    (e : Err) (h : unpackGroup buf = Except.error e) :
    unpackAux (fuel + 1) buf s (n + 1) = Except.error e := by
  simp only [unpackAux]
  rw [h]

theorem padded_group_length (v : Nat) (rest : List Nat) :
    ((v :: rest).take 8 ++ List.replicate (8 - (v :: rest).length) 0).length = 8 := by
  simp only [List.length_append, List.length_take, List.length_replicate, List.length_cons]
  omega

theorem packStreamAux_nil (fuel : Nat) : packStreamAux fuel [] = [] := by
  cases fuel <;> rfl

theorem unpackAux_nil_sink (fuel : Nat) (s : DeltaSink) :
    unpackAux fuel [] s 0 = Except.ok s := by
  cases fuel <;> rfl

theorem unpackAux_packStreamAux (fuel2 : Nat) :
    ∀ (fuel1 : Nat) (vs : List Nat) (s : DeltaSink),
      vs.length ≤ fuel1 → vs.length ≤ fuel2 →
      unpackAux fuel2 (packStreamAux fuel1 vs) s vs.length = Except.ok (pushAll s vs) := by
  induction fuel2 with
  | zero =>
    intro fuel1 vs s h1 h2
    obtain rfl : vs = [] := List.eq_nil_of_length_eq_zero (by omega)
    rw [packStreamAux_nil]
    exact unpackAux_nil_sink 0 s
  | succ f2 ih =>
    intro fuel1 vs s h1 h2
    cases vs with
    | nil =>
      rw [packStreamAux_nil]
      exact unpackAux_nil_sink (f2 + 1) s
    | cons v rest =>
      cases fuel1 with
      | zero => simp at h1
      | succ f1 =>
        have h1' : rest.length + 1 ≤ f1 + 1 := by simpa using h1
        have h2' : rest.length + 1 ≤ f2 + 1 := by simpa using h2
        rw [packStreamAux_cons]
        have hG := padded_group_length v rest
        set G := (v :: rest).take 8 ++ List.replicate (8 - (v :: rest).length) 0 with hGdef
        set S := packStreamAux f1 ((v :: rest).drop 8) with hSdef
        show unpackAux (f2 + 1) (packGroup G ++ S) s (rest.length + 1) =
          Except.ok (pushAll s (v :: rest))
        rw [unpackAux_step f2 G S hG s rest.length]
        by_cases hle : rest.length + 1 ≤ 8
        · have htake8 : (v :: rest).take 8 = v :: rest :=
            List.take_of_length_le (by simp; omega)
          have htakeG : G.take (rest.length + 1) = v :: rest := by
            rw [hGdef, htake8]
            have := take_append_len (v :: rest) (List.replicate (8 - (v :: rest).length) 0)
            simpa using this
          have hdropS : S = [] := by
            rw [hSdef, List.drop_eq_nil_of_le (by simp; omega), packStreamAux_nil]
          rw [htakeG, hdropS]
          have h0 : rest.length + 1 - 8 = 0 := by omega
          rw [h0, unpackAux_nil_sink]
        · have htakeG : G.take (rest.length + 1) = G :=
            List.take_of_length_le (by rw [hG]; omega)
          have hGfull : G = (v :: rest).take 8 := by
            rw [hGdef, show 8 - (v :: rest).length = 0 by simp; omega]
            simp
          have hlen8 : rest.length + 1 - 8 = ((v :: rest).drop 8).length := by
            simp only [List.drop_succ_cons, List.length_drop]
            omega
          rw [htakeG, hlen8, hSdef]
          rw [ih f1 ((v :: rest).drop 8) (pushAll s G)
            (by simp only [List.drop_succ_cons, List.length_drop]; omega)
            (by simp only [List.drop_succ_cons, List.length_drop]; omega)]
          rw [hGfull, pushAll_append, List.take_append_drop]

theorem unpackAux_truncated (fuel2 : Nat) :
    ∀ (fuel1 k : Nat) (vs : List Nat) (s : DeltaSink),
      vs.length ≤ fuel1 → vs.length ≤ fuel2 →
      k < (packStreamAux fuel1 vs).length →
      unpackAux fuel2 ((packStreamAux fuel1 vs).take k) s vs.length =
        Except.error Err.TruncatedInput := by
  induction fuel2 with
  | zero =>
    intro fuel1 k vs s h1 h2 hk
    obtain rfl : vs = [] := List.eq_nil_of_length_eq_zero (by omega)
    simp [packStreamAux] at hk
  | succ f2 ih =>
    intro fuel1 k vs s h1 h2 hk
    cases vs with
    | nil => simp [packStreamAux] at hk
    | cons v rest =>
      cases fuel1 with
      | zero => simp at h1
      | succ f1 =>
        have h1' : rest.length + 1 ≤ f1 + 1 := by simpa using h1
        have h2' : rest.length + 1 ≤ f2 + 1 := by simpa using h2
        rw [packStreamAux_cons] at hk ⊢
        have hG := padded_group_length v rest
        set G := (v :: rest).take 8 ++ List.replicate (8 - (v :: rest).length) 0 with hGdef
        set S := packStreamAux f1 ((v :: rest).drop 8) with hSdef
        rw [List.length_append] at hk
        by_cases hlt : k < (packGroup G).length
        · have htk : (packGroup G ++ S).take k = (packGroup G).take k := by
            rw [List.take_append_eq_append_take]
            have h0 : k - (packGroup G).length = 0 := by omega
            rw [h0]
            simp
          rw [htk]
          show unpackAux (f2 + 1) ((packGroup G).take k) s (rest.length + 1) =
            Except.error Err.TruncatedInput
          exact unpackAux_step_error f2 _ s rest.length Err.TruncatedInput
            (unpackGroup_truncated G hG k hlt)
        · have htk : (packGroup G ++ S).take k =
              packGroup G ++ S.take (k - (packGroup G).length) := by
            rw [List.take_append_eq_append_take,
              List.take_of_length_le (by omega : (packGroup G).length ≤ k)]
          rw [htk]
          show unpackAux (f2 + 1) (packGroup G ++ S.take (k - (packGroup G).length)) s
            (rest.length + 1) = Except.error Err.TruncatedInput
          rw [unpackAux_step f2 G (S.take (k - (packGroup G).length)) hG s rest.length]
          have hlen8 : rest.length + 1 - 8 = ((v :: rest).drop 8).length := by
            simp only [List.drop_succ_cons, List.length_drop]
            omega
          rw [hlen8, hSdef]
          exact ih f1 (k - (packGroup G).length) ((v :: rest).drop 8) _
            (by simp only [List.drop_succ_cons, List.length_drop]; omega)
            (by simp only [List.drop_succ_cons, List.length_drop]; omega)
            (by rw [← hSdef]; omega)

theorem length_deltasFrom : ∀ (base : Nat) (seq : List Nat),
    (deltasFrom base seq).length = seq.length
  | _, [] => rfl
  | base, v :: rest => by simp [deltasFrom, length_deltasFrom v rest]

theorem pushAll_deltasFrom : ∀ (seq : List Nat) (s : DeltaSink) (base : Nat),
    s.acc = base → base < U64LIMIT → (∀ v ∈ seq, v < U64LIMIT) →
    (pushAll s (deltasFrom base seq)).out = s.out ++ seq
  | [], s, base, _, _, _ => by simp [deltasFrom, pushAll]
  | v :: rest, s, base, hacc, hbase, hv => by
    have hv0 : v < U64LIMIT := hv v (by simp)
    have harith : (base + (U64LIMIT + v - base) % U64LIMIT) % U64LIMIT = v := by
      unfold U64LIMIT at hv0 hbase ⊢
      omega
    have hpush : s.push ((U64LIMIT + v - base) % U64LIMIT) =
        { acc := v, out := s.out ++ [v] } := by
      simp [DeltaSink.push, hacc, harith]
    show (pushAll (s.push ((U64LIMIT + v - base) % U64LIMIT)) (deltasFrom v rest)).out =
      s.out ++ v :: rest
    rw [hpush]
    rw [pushAll_deltasFrom rest { acc := v, out := s.out ++ [v] } v rfl hv0
      (fun x hx => hv x (by simp [hx]))]
    simp

/-- C1: for every sequence of u64 values of length 0 to 10000, encoding the
sequence's wrapped deltas with the NibblePacking encoder and decoding the
resulting stream through a DeltaSink (as `nibblepack_unpack_delta_u64` does)
yields exactly the original sequence, in order. -/
theorem nibblepack_delta_roundtrip (seq : List Nat)
    (hlen : seq.length ≤ 10000) (hv : ∀ v ∈ seq, v < U64LIMIT) :
    ∃ s : DeltaSink,
      unpack (packStream (deltasFrom 0 seq)) { acc := 0, out := [] } seq.length =
        Except.ok s ∧ s.out = seq := by
  refine ⟨pushAll { acc := 0, out := [] } (deltasFrom 0 seq), ?_, ?_⟩
  · rw [← length_deltasFrom 0 seq]
    exact unpackAux_packStreamAux (deltasFrom 0 seq).length (deltasFrom 0 seq).length
      (deltasFrom 0 seq) { acc := 0, out := [] } le_rfl le_rfl
  · have := pushAll_deltasFrom seq { acc := 0, out := [] } 0 rfl
      (by unfold U64LIMIT; omega) hv
    simpa using this

/-- C1 witness: the round trip at the concrete sequence `[3, 1, 7]`. -/
theorem nibblepack_delta_roundtrip_witness :
    ∃ s : DeltaSink,
      unpack (packStream (deltasFrom 0 [3, 1, 7])) { acc := 0, out := [] } 3 =
        Except.ok s ∧ s.out = [3, 1, 7] :=
  nibblepack_delta_roundtrip [3, 1, 7] (by decide) (by decide)

/-- C5: decoding any strict prefix of an encoded stream (a buffer shorter than
its declared group structure requires) fails with `TruncatedInput`, and the C
boundary `nibblepack_unpack_delta_u64` maps this to the null sentinel rather
than a pointer to partial results. -/
theorem truncated_decode_fails (vs : List Nat) (k : Nat) (s : DeltaSink)
    (hk : k < (packStream vs).length) :
    unpack ((packStream vs).take k) s vs.length = Except.error Err.TruncatedInput ∧
    nibblepack_unpack_delta_u64 ((packStream vs).take k) (k : Int) (vs.length : Int) s =
      none := by
  have h1 : unpack ((packStream vs).take k) s vs.length =
      Except.error Err.TruncatedInput := by
    show unpackAux vs.length ((packStreamAux vs.length vs).take k) s vs.length = _
    exact unpackAux_truncated vs.length vs.length k vs s le_rfl le_rfl hk
  refine ⟨h1, ?_⟩
  unfold nibblepack_unpack_delta_u64
  by_cases hcond : (k : Int) ≤ 0 ∨ ((vs.length : Nat) : Int) ≤ 0
  · rw [if_pos hcond]
  · rw [if_neg hcond]
    have hk0 : ((k : Nat) : Int).toNat = k := by simp
    have hv0 : ((vs.length : Nat) : Int).toNat = vs.length := by simp
    rw [hk0, hv0, List.take_take, min_self, h1]

/-- C5 witness: the stream of the single value 5 truncated to 1 byte. -/
theorem truncated_decode_fails_witness :
    unpack ((packStream [5]).take 1) { acc := 0, out := [] } 1 =
      Except.error Err.TruncatedInput ∧
    nibblepack_unpack_delta_u64 ((packStream [5]).take 1) (1 : Int) (1 : Int)
      { acc := 0, out := [] } = none :=
  truncated_decode_fails [5] 1 { acc := 0, out := [] } (by decide)

/-- C6: encoding one group of 8 all-zero values produces a block of exactly 2
bytes — the control byte and the mask byte — with zero payload bytes. -/
theorem all_zero_group_two_bytes :
    packGroup (List.replicate 8 0) = [0, 0] ∧
      (packGroup (List.replicate 8 0)).length = 2 :=
  ⟨rfl, rfl⟩

theorem unpack_delta_u64_pos_ok (buf : List Nat) (nb nv : Int) (sink s : DeltaSink)
    (hb : 0 < nb) (hv : 0 < nv)
    (hu : unpack (buf.take nb.toNat) sink nv.toNat = Except.ok s) :
    nibblepack_unpack_delta_u64 buf nb nv sink = some s.out := by
  unfold nibblepack_unpack_delta_u64
  rw [if_neg (by omega), hu]

theorem unpack_delta_u64_pos_error (buf : List Nat) (nb nv : Int) (sink : DeltaSink)
    (e : Err) (hb : 0 < nb) (hv : 0 < nv)
    (hu : unpack (buf.take nb.toNat) sink nv.toNat = Except.error e) :
    nibblepack_unpack_delta_u64 buf nb nv sink = none := by
  unfold nibblepack_unpack_delta_u64
  rw [if_neg (by omega), hu]

/-- C2: `nibblepack_unpack_delta_u64` returns the null sentinel exactly when
the call fails — when `num_bytes <= 0`, when `num_values <= 0`, or when the
underlying unpack reports an error — and in every other case it returns the
pointer to the (threaded thread-local) DeltaSink output buffer. -/
theorem unpack_delta_u64_null_iff (buf : List Nat) (nb nv : Int) (sink : DeltaSink) :
    (nibblepack_unpack_delta_u64 buf nb nv sink = none ↔
      nb ≤ 0 ∨ nv ≤ 0 ∨ ∃ e, unpack (buf.take nb.toNat) sink nv.toNat = Except.error e) ∧
    (∀ s, 0 < nb → 0 < nv → unpack (buf.take nb.toNat) sink nv.toNat = Except.ok s →
      nibblepack_unpack_delta_u64 buf nb nv sink = some s.out) := by
  constructor
  · constructor
    · intro hnone
      by_cases hb : nb ≤ 0
      · exact Or.inl hb
      by_cases hv : nv ≤ 0
      · exact Or.inr (Or.inl hv)
      cases hu : unpack (buf.take nb.toNat) sink nv.toNat with
      | ok s =>
        rw [unpack_delta_u64_pos_ok buf nb nv sink s (by omega) (by omega) hu] at hnone
        exact absurd hnone (by simp)
      | error e => exact Or.inr (Or.inr ⟨e, rfl⟩)
    · intro h
      rcases h with hb | hv | ⟨e, he⟩
      · unfold nibblepack_unpack_delta_u64
        rw [if_pos (Or.inl hb)]
      · unfold nibblepack_unpack_delta_u64
        rw [if_pos (Or.inr hv)]
      · by_cases hb : nb ≤ 0
        · unfold nibblepack_unpack_delta_u64
          rw [if_pos (Or.inl hb)]
        · by_cases hv : nv ≤ 0
          · unfold nibblepack_unpack_delta_u64
            rw [if_pos (Or.inr hv)]
          · exact unpack_delta_u64_pos_error buf nb nv sink e (by omega) (by omega) he
  · intro s hb hv hu
    exact unpack_delta_u64_pos_ok buf nb nv sink s hb hv hu

/-- C2 witness: a successful decode of one group returning the sink buffer. -/
theorem unpack_delta_u64_null_iff_witness :
    nibblepack_unpack_delta_u64 [0, 0] 2 1 { acc := 0, out := [] } = some [0] :=
  (unpack_delta_u64_null_iff [0, 0] 2 1 { acc := 0, out := [] }).2
    { acc := 0, out := [0] } (by decide) (by decide) (by rfl)

/-- C8: contrary to the claim (and to the comment in the source, which says
the output buffer is reset), `nibblepack_unpack_delta_u64` does not reset the
thread-local DeltaSink before decoding: with a stale sink holding output [3]
and accumulator 3, decoding the 1-value stream [1, 1, 5] (value 5) returns a
buffer still containing the stale 3 and an accumulator-shifted 8, whereas the
same call on a reset sink returns [5]. -/
theorem unpack_delta_u64_stale_sink :
    nibblepack_unpack_delta_u64 [1, 1, 5] 3 1 { acc := 3, out := [3] } = some [3, 8] ∧
    nibblepack_unpack_delta_u64 [1, 1, 5] 3 1
      (DeltaSink.reset { acc := 3, out := [3] }) = some [5] :=
  ⟨rfl, rfl⟩

/-- C9: for every i32 input whose double is representable in i32,
`double_input` returns exactly twice its input. -/
theorem double_input_exact (n : Int) (h1 : -2147483648 ≤ 2 * n)
    (h2 : 2 * n < 2147483648) : double_input n = 2 * n := by
  unfold double_input wrap32
  omega

/-- C9 witness: doubling 21 gives 42. -/
theorem double_input_exact_witness : double_input 21 = 2 * 21 :=
  double_input_exact 21 (by decide) (by decide)

theorem getD_drop : ∀ (l : List Nat) (m i : Nat), (l.drop m).getD i 0 = l.getD (m + i) 0
  | _, 0, _ => by simp
  | [], _ + 1, _ => by simp
  | x :: t, m + 1, i => by
    have := getD_drop t m i
    show (t.drop m).getD i 0 = (x :: t).getD (m + 1 + i) 0
    rw [this, show m + 1 + i = (m + i) + 1 by omega, List.getD_cons_succ]

theorem getD_take : ∀ (l : List Nat) (n i : Nat), i < n → (l.take n).getD i 0 = l.getD i 0
  | [], _, _, _ => by simp
  | x :: t, n + 1, 0, _ => by simp
  | x :: t, n + 1, i + 1, h => by
    show ((x :: t.take n).getD (i + 1) 0) = (x :: t).getD (i + 1) 0
    rw [List.getD_cons_succ, List.getD_cons_succ]
    exact getD_take t n i (by omega)

/-- C3: for a non-null pointer to a well-formed region, `medium_slice_from_ptr`
reads the 2-byte little-endian length N and returns the slice of exactly the N
payload bytes starting right after the length field, and `large_slice_from_ptr`
does the same with a 4-byte little-endian length field. -/
theorem region_slices_correct (mem : List Nat) (a : Nat) :
    (a + 2 + readU16LE mem a ≤ mem.length →
      ∃ s, medium_slice_from_ptr mem (some a) = some s ∧
        s.length = readU16LE mem a ∧
        ∀ i, i < readU16LE mem a → s.getD i 0 = mem.getD (a + 2 + i) 0) ∧
    (a + 4 + readU32LE mem a ≤ mem.length →
      ∃ s, large_slice_from_ptr mem (some a) = some s ∧
        s.length = readU32LE mem a ∧
        ∀ i, i < readU32LE mem a → s.getD i 0 = mem.getD (a + 4 + i) 0) := by
  constructor
  · intro h
    refine ⟨(mem.drop (a + 2)).take (readU16LE mem a), rfl, ?_, ?_⟩
    · rw [List.length_take, List.length_drop]
      omega
    · intro i hi
      rw [getD_take _ _ _ hi, getD_drop]
  · intro h
    refine ⟨(mem.drop (a + 4)).take (readU32LE mem a), rfl, ?_, ?_⟩
    · rw [List.length_take, List.length_drop]
      omega
    · intro i hi
      rw [getD_take _ _ _ hi, getD_drop]

/-- C3 witness: the memory `[1, 0, 0, 0, 7]` at address 0 is well formed for
both region kinds (medium length 1, payload `[0]`; large length 1, payload
`[7]`). -/
theorem region_slices_correct_witness :
    (∃ s, medium_slice_from_ptr [1, 0, 0, 0, 7] (some 0) = some s ∧
        s.length = readU16LE [1, 0, 0, 0, 7] 0 ∧
        ∀ i, i < readU16LE [1, 0, 0, 0, 7] 0 →
          s.getD i 0 = List.getD [1, 0, 0, 0, 7] (0 + 2 + i) 0) ∧
    (∃ s, large_slice_from_ptr [1, 0, 0, 0, 7] (some 0) = some s ∧
        s.length = readU32LE [1, 0, 0, 0, 7] 0 ∧
        ∀ i, i < readU32LE [1, 0, 0, 0, 7] 0 →
          s.getD i 0 = List.getD [1, 0, 0, 0, 7] (0 + 4 + i) 0) :=
  ⟨(region_slices_correct [1, 0, 0, 0, 7] 0).1 (by decide),
   (region_slices_correct [1, 0, 0, 0, 7] 0).2 (by decide)⟩

/-- C7: for a null input pointer both slice readers fail their non-null
assertion before any dereference: the result is the assertion failure
(`none`) and is independent of the memory contents, so no read through the
null pointer ever happens. -/
theorem null_pointer_never_dereferenced (mem mem2 : List Nat) :
    medium_slice_from_ptr mem none = none ∧
    large_slice_from_ptr mem none = none ∧
    medium_slice_from_ptr mem none = medium_slice_from_ptr mem2 none ∧
    large_slice_from_ptr mem none = large_slice_from_ptr mem2 none :=
  ⟨rfl, rfl, rfl, rfl⟩

/-- C4 (code bug): for `num_buckets > 65535` with otherwise valid parameters,
`compress_hist_geom_nonincreasing` does not yield `ValidationError` — the
entry point truncates `num_buckets` to u16 before the encoder's check can see
it, and a frame is produced whose recorded bucket count is
`num_buckets mod 2^16`. -/
theorem hist_overflow_no_validation_error (num_buckets : Nat)
    (h : 65535 < num_buckets) (ib m : Rat) (hm : 1 < m) (hib : 0 < ib)
    (fc : Nat) (vals : List Nat) :
    ∃ fr, compress_hist_geom_nonincreasing num_buckets ib m fc vals = Except.ok fr ∧
      fr.bucketCount = num_buckets % 65536 := by
  unfold compress_hist_geom_nonincreasing compress_geom_nonincreasing
  rw [if_neg (by omega : ¬ 65535 < num_buckets % 65536),
    if_neg (not_le.mpr hm), if_neg (not_le.mpr hib)]
  exact ⟨_, rfl, rfl⟩

/-- C4 witness: `num_buckets = 65536` with valid bucket parameters encodes a
frame (bucket count recorded as 0) instead of failing validation. -/
theorem hist_overflow_no_validation_error_witness :
    ∃ fr, compress_hist_geom_nonincreasing 65536 1 2 0 [] = Except.ok fr ∧
      fr.bucketCount = 65536 % 65536 :=
  hist_overflow_no_validation_error 65536 (by decide) 1 2 (by decide) (by decide) 0 []

/-- C10: `compress_hist_geom_nonincreasing` casts `num_buckets` to u16 while
still reading `num_buckets` values from the input: for `num_buckets > 65535`
the frame records `num_buckets mod 2^16` buckets although `num_buckets`
values are read and delta-encoded into the stream. -/
theorem hist_bucket_count_truncated (num_buckets : Nat) (h : 65535 < num_buckets)
    (ib m : Rat) (hm : 1 < m) (hib : 0 < ib) (fc : Nat) (vals : List Nat)
    (hlen : num_buckets ≤ vals.length) :
    ∃ fr, compress_hist_geom_nonincreasing num_buckets ib m fc vals = Except.ok fr ∧
      fr.bucketCount = num_buckets % 65536 ∧
      (vals.take num_buckets).length = num_buckets ∧
      fr.stream = packStream (deltasFrom 0 (vals.take num_buckets).reverse) ∧
      fr.bucketCount ≠ num_buckets := by
  unfold compress_hist_geom_nonincreasing compress_geom_nonincreasing
  rw [if_neg (by omega : ¬ 65535 < num_buckets % 65536),
    if_neg (not_le.mpr hm), if_neg (not_le.mpr hib)]
  refine ⟨_, rfl, rfl, ?_, rfl, ?_⟩
  · rw [List.length_take]
    omega
  · show num_buckets % 65536 ≠ num_buckets
    omega

/-- C10 witness: `num_buckets = 65536` over 65536 supplied values records a
bucket count of 0 while all 65536 values are read and encoded. -/
theorem hist_bucket_count_truncated_witness :
    ∃ fr, compress_hist_geom_nonincreasing 65536 1 2 0 (List.replicate 65536 1) =
        Except.ok fr ∧
      fr.bucketCount = 65536 % 65536 ∧
      ((List.replicate 65536 (1 : Nat)).take 65536).length = 65536 ∧
      fr.stream = packStream (deltasFrom 0
        ((List.replicate 65536 (1 : Nat)).take 65536).reverse) ∧
      fr.bucketCount ≠ 65536 :=
  hist_bucket_count_truncated 65536 (by decide) 1 2 (by decide) (by decide) 0
    (List.replicate 65536 1) (by rw [List.length_replicate])

end Filo
